import Mathlib

/-!
Verification of the stock-aware aggregation logic of the
Fertilisers-and-Pesticides dashboard.

The development shallowly embeds the business-logic fragments of the
dashboard pages: recording sales and returns with their stock checks,
the read-time stock reconciliation, the aggregate-by-key reducers used
by the turnover and overview screens, the growth-percentage and
market-share formulas, the by-date grouping behind the PDF reports,
and the duplicate-merging product submission.

Modelling conventions: monetary amounts are exact rationals, quantities
are integers, calendar dates are natural numbers ordered chronologically
(ISO date strings compare lexicographically, which is the same order),
and row identifiers are strings.  JavaScript objects used as accumulators
are modelled as association lists that preserve first-insertion order of
keys, which is exactly the enumeration order of string-keyed objects.
-/

namespace FertiDash

/-! ## Data model -/

/-- Row of the products table, with the columns written by the
add-product form of the dashboard layout. -/
structure Product where
  id : String
  invoice_id : String
  name : String
  category : String
  price : ℚ
  discount_price : Option ℚ
  offer_scheme : Option String
  quantity : ℤ
  quantity_unit : String
  expiry_date : String
  image_url : String
deriving DecidableEq, Repr

/-- One line of the sale or return entry form: a chosen product,
a quantity and a discount amount. -/
structure SaleItem where
  productId : String
  quantity : ℤ
  discount : ℚ
deriving DecidableEq, Repr

/-- Row inserted into the sales table by the record-sale handlers. -/
structure SaleRow where
  customer_id : String
  product_id : String
  quantity : ℤ
  total_price : ℚ
  discount_price : ℚ
  purchase_date : ℕ
deriving DecidableEq, Repr

/-- Row inserted into the returns table by the record-return handler. -/
structure ReturnRow where
  company_id : String
  invoice_id : String
  product_id : String
  quantity : ℤ
  total_price : ℚ
  discount_price : ℚ
  return_date : ℕ
deriving DecidableEq, Repr

/-- Lookup of a product by its id in the loaded product list, the
products.find call of the pages. -/
def findProduct : List Product → String → Option Product
  | [], _ => none
  | p :: rest, pid => if p.id = pid then some p else findProduct rest pid

/-! ## Recording sales and returns -/

/-- Stock check loop of the customers-page recordSale and the
returns-page recordReturn: an item fails when its product is loaded and
the requested quantity exceeds the recorded quantity. -/
def stockOk (products : List Product) (items : List SaleItem) : Bool :=
  items.all (fun item =>
    match findProduct products item.productId with
    | some p => decide (item.quantity ≤ p.quantity)
    | none => true)

/-- Line total used when building a sale or return row: price times
quantity minus discount when the product is loaded, zero otherwise. -/
def lineTotal (products : List Product) (item : SaleItem) : ℚ :=
  match findProduct products item.productId with
  | some p => p.price * (item.quantity : ℚ) - item.discount
  | none => 0

/-- Sale row built by recordSale for one valid item. -/
def mkSaleRow (products : List Product) (customerId : String) (saleDate : ℕ)
    (item : SaleItem) : SaleRow :=
  { customer_id := customerId
    product_id := item.productId
    quantity := item.quantity
    total_price := lineTotal products item
    discount_price := item.discount
    purchase_date := saleDate }

/-- Return row built by recordReturn for one valid item. -/
def mkReturnRow (products : List Product) (companyId invoiceId : String)
    (returnDate : ℕ) (item : SaleItem) : ReturnRow :=
  { company_id := companyId
    invoice_id := invoiceId
    product_id := item.productId
    quantity := item.quantity
    total_price := lineTotal products item
    discount_price := item.discount
    return_date := returnDate }

/-- Writes performed by a successful sale recording: the new recorded
quantity of each touched product, and the inserted sale rows. -/
structure SaleWriteSet where
  productWrites : List (String × ℤ)
  insertedRows : List SaleRow
deriving DecidableEq, Repr

/-- The customers-page recordSale: the stock of every valid item is
checked before any write; on failure nothing is written, otherwise each
touched product is decremented and the sale rows are inserted. -/
def recordSaleCustomers (products : List Product) (customerId : String)
    (saleDate : ℕ) (validItems : List SaleItem) : Option SaleWriteSet :=
  if stockOk products validItems then
    some
      { productWrites := validItems.filterMap (fun item =>
          (findProduct products item.productId).map
            (fun p => (p.id, p.quantity - item.quantity)))
        insertedRows := validItems.map (mkSaleRow products customerId saleDate) }
  else none

/-- The turnover-page recordSale: the sale rows are built and inserted
directly, with no stock check and no product decrement. -/
def recordSaleTurnover (products : List Product) (customerId : String)
    (saleDate : ℕ) (validItems : List SaleItem) : List SaleRow :=
  validItems.map (mkSaleRow products customerId saleDate)

/-! ## Read-time stock reconciliation -/

/-- Stock shown by the layout fetchProducts: recorded quantity minus the
summed quantities of the sales rows referencing the product, clamped to
zero when negative. -/
def displayStock (recordedQuantity : ℤ) (saleQuantities : List ℤ) : ℤ :=
  let totalSold := saleQuantities.sum
  let actualStock := recordedQuantity - totalSold
  if actualStock ≥ 0 then actualStock else 0

/-- Stock formula written in the specification, where the subtracted
depletions are the quantities of all sale and return transactions
against the product.  Stated for comparison with displayStock, which
only subtracts sales. -/
def specDisplayStock (recordedQuantity : ℤ)
    (saleQuantities returnQuantities : List ℤ) : ℤ :=
  max 0 (recordedQuantity - (saleQuantities ++ returnQuantities).sum)

/-! ## Concrete rows used to evaluate the operations -/

/-- Sample product with five units of recorded stock. -/
def p1 : Product :=
  { id := "p1", invoice_id := "inv1", name := "Urea", category := "Fertilizer"
    price := 100, discount_price := none, offer_scheme := none
    quantity := 5, quantity_unit := "kg", expiry_date := "", image_url := "" }

/-- Sale line asking for ten units of the sample product. -/
def item10 : SaleItem := { productId := "p1", quantity := 10, discount := 0 }

/-! ## Aggregate-by-key reducer

JavaScript accumulator objects are association lists: a new key is
appended at the end (keys enumerate in first-insertion order), an
existing key has its running sum increased in place. -/

/-- One step of the reduce callback: add an amount under a key. -/
def upsert {κ : Type} [DecidableEq κ] : List (κ × ℚ) → κ → ℚ → List (κ × ℚ)
  | [], k, amt => [(k, amt)]
  | e :: rest, k, amt =>
    if e.1 = k then (e.1, e.2 + amt) :: rest else e :: upsert rest k amt

/-- Reading a key from the accumulator, with the zero default used by
the pages for a missing key. -/
def lookupD {κ : Type} [DecidableEq κ] : List (κ × ℚ) → κ → ℚ
  | [], _ => 0
  | e :: rest, k => if e.1 = k then e.2 else lookupD rest k

/-- A fetched row carrying a date and a monetary amount, the shape
consumed by the by-date reducers. -/
structure DatedAmount where
  date : ℕ
  amount : ℚ
deriving DecidableEq, Repr

/-- The by-date reduce of the turnover fetchTurnover: fold the rows into
an accumulator keyed by date. -/
def aggregateByDate (rows : List DatedAmount) : List (ℕ × ℚ) :=
  rows.foldl (fun acc s => upsert acc s.date s.amount) []

/-- Comparator used to sort chart entries ascending by their date. -/
def keyLE (a b : ℕ × ℚ) : Prop := a.1 ≤ b.1

instance : DecidableRel keyLE := fun a b => inferInstanceAs (Decidable (a.1 ≤ b.1))

instance : IsTotal (ℕ × ℚ) keyLE := ⟨fun a b => Nat.le_total a.1 b.1⟩

instance : IsTrans (ℕ × ℚ) keyLE := ⟨fun _ _ _ h1 h2 => Nat.le_trans h1 h2⟩

/-- Chart series of fetchTurnover: the aggregated entries sorted
ascending by date. -/
def salesSeries (rows : List DatedAmount) : List (ℕ × ℚ) :=
  List.insertionSort keyLE (aggregateByDate rows)

/-- Sum of the amounts of the rows bearing one date. -/
def sumOn (rows : List DatedAmount) (d : ℕ) : ℚ :=
  ((rows.filter (fun s => decide (s.date = d))).map (·.amount)).sum

/-! ## Growth percentage -/

/-- Growth computation of the overview fetchOverviewData: only when the
series has more than one point and its first value is positive is the
relative change of last over first produced. -/
def growthPct (series : List ℚ) : Option ℚ :=
  if series.length > 1 then
    if series.headD 0 > 0 then
      some ((series.getLastD 0 - series.headD 0) / series.headD 0 * 100)
    else none
  else none

/-! ## Market share -/

/-- An invoice as consumed by the turnover company analysis: the owning
company and the invoice amount. -/
structure Purchase where
  company_id : String
  total_amount : ℚ
deriving DecidableEq, Repr

/-- Per-company purchase totals, the companyAnalysis reduce. -/
def companyTotals (purchases : List Purchase) : List (String × ℚ) :=
  purchases.foldl (fun acc inv => upsert acc inv.company_id inv.total_amount) []

/-- Grand total over all fetched invoices. -/
def totalPurchases (purchases : List Purchase) : ℚ :=
  (purchases.map (·.total_amount)).sum

/-- Market-share formula of the turnover page: a percentage of the grand
total when that total is positive, zero otherwise. -/
def marketShare (companyTotal grandTotal : ℚ) : ℚ :=
  if grandTotal > 0 then companyTotal / grandTotal * 100 else 0

/-- Market share attached to each aggregated company entry, as produced
by the turnover company table. -/
def companyShares (purchases : List Purchase) : List (String × ℚ) :=
  (companyTotals purchases).map
    (fun c => (c.1, marketShare c.2 (totalPurchases purchases)))

/-! ## Net series over two aggregations -/

/-- Daily net turnover of the turnover dashboard: the union of the key
sets of the two aggregations, sorted, each key mapped to the difference
of the two sides with a missing side contributing zero. -/
def netSeries (salesAgg purchAgg : List (ℕ × ℚ)) : List (ℕ × ℚ) :=
  let allDates :=
    List.insertionSort (· ≤ ·) ((salesAgg.map Prod.fst ++ purchAgg.map Prod.fst).dedup)
  allDates.map (fun d => (d, lookupD salesAgg d - lookupD purchAgg d))

/-! ## Report grouping -/

/-- A sales or returns history row as consumed by the PDF report
generators. -/
structure TxRecord where
  date : ℕ
  productName : String
  quantity : ℤ
  price : ℚ
  discount : ℚ
  total_price : ℚ
deriving DecidableEq, Repr

/-- One report group: the rows of one date and their running total. -/
structure DateGroup where
  date : ℕ
  items : List TxRecord
  total : ℚ
deriving DecidableEq, Repr

/-- One step of the report grouping: a row joins the group of its date,
or opens a new group at the end. -/
def addToGroups : List DateGroup → TxRecord → List DateGroup
  | [], r => [⟨r.date, [r], r.total_price⟩]
  | g :: rest, r =>
    if g.date = r.date then ⟨g.date, g.items ++ [r], g.total + r.total_price⟩ :: rest
    else g :: addToGroups rest r

/-- Grouping of history rows by date performed by the report
generators; groups appear in first-appearance order of their date. -/
def groupByDate (rows : List TxRecord) : List DateGroup :=
  rows.foldl addToGroups []

/-- Items of the group of a date, empty when no group carries it. -/
def groupItems : List DateGroup → ℕ → List TxRecord
  | [], _ => []
  | g :: rest, d => if g.date = d then g.items else groupItems rest d

/-- Total of the group of a date, zero when no group carries it. -/
def groupTotal : List DateGroup → ℕ → ℚ
  | [], _ => 0
  | g :: rest, d => if g.date = d then g.total else groupTotal rest d

/-- Grand total of a report: sum of the line totals over all rows. -/
def grandTotal (rows : List TxRecord) : ℚ :=
  (rows.map (·.total_price)).sum

/-- History row with date 2, fetched first under descending order. -/
def rA : TxRecord :=
  { date := 2, productName := "A", quantity := 1, price := 10, discount := 0, total_price := 10 }

/-- History row with date 1, fetched second under descending order. -/
def rB : TxRecord :=
  { date := 1, productName := "B", quantity := 1, price := 20, discount := 0, total_price := 20 }

/-! ## Add-product submission -/

/-- State of the add-product form at submission time. -/
structure ProductForm where
  invoice_id : String
  name : String
  category : String
  price : ℚ
  discount_price : Option ℚ
  offer_scheme : Option String
  quantity : ℤ
  quantity_unit : String
  expiry_date : String
  image_url : String
deriving DecidableEq, Repr

/-- Character-wise lowercasing, the model of the lower-casing applied
to product names before comparison. -/
def lowerStr (s : String) : String := String.mk (s.data.map Char.toLower)

/-- Duplicate search of handleSubmit in add mode: first loaded product
whose name matches case-insensitively and whose unit matches exactly. -/
def findExisting : List Product → ProductForm → Option Product
  | [], _ => none
  | p :: rest, form =>
    if lowerStr p.name = lowerStr form.name ∧ p.quantity_unit = form.quantity_unit
    then some p else findExisting rest form

/-- Row inserted when no duplicate is found; the identifier is assigned
by the backend. -/
def mkNewProduct (newId : String) (form : ProductForm) : Product :=
  { id := newId
    invoice_id := form.invoice_id
    name := form.name
    category := form.category
    price := form.price
    discount_price := form.discount_price
    offer_scheme := form.offer_scheme
    quantity := form.quantity
    quantity_unit := form.quantity_unit
    expiry_date := form.expiry_date
    image_url := form.image_url }

/-- Effect of handleSubmit in add mode on the products table: a found
duplicate gets only its quantity column increased by the submitted
quantity, otherwise a fresh row is appended. -/
def handleSubmitAdd (products : List Product) (newId : String)
    (form : ProductForm) : List Product :=
  match findExisting products form with
  | some ex =>
      products.map (fun p =>
        if p.id = ex.id then { p with quantity := ex.quantity + form.quantity } else p)
  | none => products ++ [mkNewProduct newId form]

/-! ## Concrete inputs used by witnesses and counterexamples -/

/-- Worked example of the specification: two amounts on day one, one on
day two. -/
def exSales : List DatedAmount := [⟨1, 100⟩, ⟨1, 50⟩, ⟨2, 30⟩]

/-- Two invoices with negative amounts, giving a negative grand total. -/
def negPurchases : List Purchase := [⟨"a", -300⟩, ⟨"b", -200⟩]

/-- Worked market-share example of the specification. -/
def sharesExample : List Purchase := [⟨"a", 300⟩, ⟨"b", 200⟩, ⟨"c", 0⟩]

/-- Loaded product matched by the duplicate search. -/
def pA : Product :=
  { id := "idA", invoice_id := "inv1", name := "Urea", category := "Fertilizer"
    price := 100, discount_price := none, offer_scheme := none
    quantity := 5, quantity_unit := "kg", expiry_date := "2026-01-01", image_url := "urea.png" }

/-- Second loaded product, untouched by the duplicate merge. -/
def pB : Product :=
  { id := "idB", invoice_id := "inv1", name := "DAP", category := "Fertilizer"
    price := 80, discount_price := none, offer_scheme := none
    quantity := 3, quantity_unit := "kg", expiry_date := "", image_url := "" }

/-- Submitted form whose name matches the first product only up to
letter case. -/
def formUrea : ProductForm :=
  { invoice_id := "inv2", name := "uReA", category := "Insecticide"
    price := 120, discount_price := some 5, offer_scheme := none
    quantity := 7, quantity_unit := "kg", expiry_date := "2027-01-01", image_url := "new.png" }

/-! ## Association-list lemmas -/

theorem lookupD_upsert {κ : Type} [DecidableEq κ] (acc : List (κ × ℚ)) (k d : κ) (amt : ℚ) :
    lookupD (upsert acc k amt) d = lookupD acc d + (if d = k then amt else 0) := by
  induction acc with
  | nil =>
    rcases eq_or_ne d k with h | h
    · subst h; simp [upsert, lookupD]
    · simp [upsert, lookupD, h, Ne.symm h]
  | cons e rest ih =>
    by_cases he : e.1 = k
    · by_cases hd : e.1 = d
      · have hdk : d = k := hd.symm.trans he
        simp [upsert, lookupD, he, hd, hdk]
      · have hdk : d ≠ k := fun h => hd (he.trans h.symm)
        have hkd : ¬ k = d := fun h => hdk h.symm
        simp [upsert, lookupD, he, hd, hdk, hkd]
    · by_cases hd : e.1 = d
      · have hdk : d ≠ k := fun h => he (hd.trans h)
        simp [upsert, lookupD, he, hd, hdk]
      · simp [upsert, lookupD, he, hd, ih]

theorem keys_upsert {κ : Type} [DecidableEq κ] (acc : List (κ × ℚ)) (k : κ) (amt : ℚ) :
    (upsert acc k amt).map Prod.fst =
      if k ∈ acc.map Prod.fst then acc.map Prod.fst else acc.map Prod.fst ++ [k] := by
  induction acc with
  | nil => simp [upsert]
  | cons e rest ih =>
    by_cases he : e.1 = k
    · simp [upsert, he]
    · have hke : k ≠ e.1 := fun h => he h.symm
      by_cases hmem : k ∈ rest.map Prod.fst
      · have hcond : k ∈ (e :: rest).map Prod.fst := by simp [hmem]
        rw [if_pos hcond]
        simp [upsert, he, ih, hmem]
      · have hcond : k ∉ (e :: rest).map Prod.fst := by simp [hke, hmem]
        rw [if_neg hcond]
        simp [upsert, he, ih, hmem]

theorem nodup_keys_upsert {κ : Type} [DecidableEq κ] (acc : List (κ × ℚ)) (k : κ) (amt : ℚ)
    (h : (acc.map Prod.fst).Nodup) : ((upsert acc k amt).map Prod.fst).Nodup := by
  rw [keys_upsert]
  split
  · exact h
  · rename_i hmem
    refine h.append (List.nodup_singleton _) ?_
    intro a ha hb
    simp only [List.mem_singleton] at hb
    subst hb
    exact hmem ha

theorem lookupD_of_mem {κ : Type} [DecidableEq κ] {acc : List (κ × ℚ)} {e : κ × ℚ}
    (hnd : (acc.map Prod.fst).Nodup) (he : e ∈ acc) : lookupD acc e.1 = e.2 := by
  induction acc with
  | nil => cases he
  | cons a rest ih =>
    rw [List.map_cons, List.nodup_cons] at hnd
    rcases List.mem_cons.mp he with rfl | hmem
    · simp [lookupD]
    · have ha : a.1 ≠ e.1 := by
        intro h
        exact hnd.1 (h ▸ List.mem_map.mpr ⟨e, hmem, rfl⟩)
      simp [lookupD, ha, ih hnd.2 hmem]

theorem lookupD_eq_zero_of_not_mem {κ : Type} [DecidableEq κ] (acc : List (κ × ℚ)) (k : κ)
    (h : k ∉ acc.map Prod.fst) : lookupD acc k = 0 := by
  induction acc with
  | nil => rfl
  | cons e rest ih =>
    simp only [List.map_cons, List.mem_cons, not_or] at h
    have hek : e.1 ≠ k := fun hh => h.1 hh.symm
    simp [lookupD, hek, ih h.2]

theorem sumOn_cons (s : DatedAmount) (rest : List DatedAmount) (d : ℕ) :
    sumOn (s :: rest) d = (if d = s.date then s.amount else 0) + sumOn rest d := by
  rcases eq_or_ne d s.date with h | h
  · subst h
    simp [sumOn, List.filter_cons]
  · simp [sumOn, List.filter_cons, Ne.symm h, h]

theorem lookupD_foldl_dated (rows : List DatedAmount) :
    ∀ (acc : List (ℕ × ℚ)) (d : ℕ),
      lookupD (rows.foldl (fun a s => upsert a s.date s.amount) acc) d =
        lookupD acc d + sumOn rows d := by
  induction rows with
  | nil => intro acc d; simp [sumOn]
  | cons s rest ih =>
    intro acc d
    rw [List.foldl_cons, ih, lookupD_upsert, sumOn_cons]
    ring

theorem nodup_keys_aggregateByDate (rows : List DatedAmount) :
    ((aggregateByDate rows).map Prod.fst).Nodup := by
  suffices h : ∀ acc : List (ℕ × ℚ), (acc.map Prod.fst).Nodup →
      ((rows.foldl (fun a s => upsert a s.date s.amount) acc).map Prod.fst).Nodup by
    simpa [aggregateByDate] using h [] (by simp)
  induction rows with
  | nil => intro acc h; simpa using h
  | cons s rest ih => intro acc h; exact ih _ (nodup_keys_upsert _ _ _ h)

theorem mem_keys_foldl_dated (rows : List DatedAmount) :
    ∀ (acc : List (ℕ × ℚ)) (d : ℕ),
      d ∈ acc.map Prod.fst ∨ d ∈ rows.map (·.date) →
      d ∈ (rows.foldl (fun a s => upsert a s.date s.amount) acc).map Prod.fst := by
  induction rows with
  | nil =>
    intro acc d h
    simpa using h.resolve_right (by simp)
  | cons s rest ih =>
    intro acc d h
    rw [List.foldl_cons]
    rcases h with h | h
    · refine ih _ d (Or.inl ?_)
      rw [keys_upsert]
      split
      · exact h
      · exact List.mem_append_left _ h
    · simp only [List.map_cons, List.mem_cons] at h
      rcases h with h | h
      · subst h
        refine ih _ s.date (Or.inl ?_)
        rw [keys_upsert]
        split
        · assumption
        · exact List.mem_append_right _ (by simp)
      · exact ih _ d (Or.inr h)

/-! ## Claim C1 -/

/-- Claim C1 (code bug): a sale whose line quantity exceeds the
recorded stock must be rejected before any write.  The customers-page
recordSale indeed rejects it with nothing written, but the turnover-page
recordSale inserts the sale row unconditionally: at a product with five
units and a line asking for ten, the checked variant writes nothing
while the turnover variant inserts one sale row. -/
theorem turnover_sale_exceeding_stock_inserted :
    recordSaleCustomers [p1] "c1" 0 [item10] = none ∧
    recordSaleTurnover [p1] "c1" 0 [item10] =
      [{ customer_id := "c1", product_id := "p1", quantity := 10,
         total_price := 1000, discount_price := 0, purchase_date := 0 }] ∧
    p1.quantity < item10.quantity := by
  refine ⟨by decide, ?_, by decide⟩
  simp only [recordSaleTurnover, mkSaleRow, lineTotal, findProduct, List.map]
  norm_num [p1, item10]

/-! ## Claim C2 -/

/-- Claim C2 counterexample: the stock value presented by the layout
only subtracts sale quantities, while the specification counts every
sale and return transaction as a depletion.  A product with recorded
quantity ten, no sales and one return of four units is presented as
ten, not six. -/
theorem display_stock_ignores_returns :
    displayStock 10 [] = 10 ∧ specDisplayStock 10 [] [4] = 6 ∧ (10 : ℤ) ≠ 6 := by
  refine ⟨by decide, by decide, by decide⟩

/-- Claim C2 (amended): the stock value presented to the user equals the
recorded quantity minus the summed quantities of the sale transactions
against the product, clamped at zero, and is therefore never
negative. -/
theorem display_stock_clamped_never_negative (recordedQuantity : ℤ)
    (saleQuantities : List ℤ) :
    displayStock recordedQuantity saleQuantities =
      max 0 (recordedQuantity - saleQuantities.sum) ∧
    0 ≤ displayStock recordedQuantity saleQuantities := by
  simp only [displayStock]
  constructor
  · split
    · rename_i h
      exact (max_eq_right h).symm
    · rename_i h
      exact (max_eq_left (le_of_lt (lt_of_not_ge h))).symm
  · split
    · rename_i h
      exact h
    · exact le_refl 0

/-! ## Claim C3 -/

/-- Claim C3: every recorded sale or return line item stores a total
price equal to the referenced product's price at recording time times
the quantity, minus the discount. -/
theorem recorded_line_total_formula (products : List Product) (item : SaleItem)
    (p : Product) (h : findProduct products item.productId = some p)
    (customerId companyId invoiceId : String) (d : ℕ) :
    (mkSaleRow products customerId d item).total_price
        = p.price * (item.quantity : ℚ) - item.discount ∧
    (mkReturnRow products companyId invoiceId d item).total_price
        = p.price * (item.quantity : ℚ) - item.discount := by
  constructor <;> simp [mkSaleRow, mkReturnRow, lineTotal, h]

/-- Witness for claim C3 at the sample product and sale line. -/
theorem recorded_line_total_formula_witness :
    findProduct [p1] item10.productId = some p1 ∧
    (mkSaleRow [p1] "c1" 0 item10).total_price
        = p1.price * (item10.quantity : ℚ) - item10.discount :=
  ⟨by decide, (recorded_line_total_formula [p1] item10 p1 (by decide) "c1" "co1" "inv1" 0).1⟩

/-! ## Claim C5 -/

/-- Claim C5 counterexample: on the two-point series with first value
minus ten, the first value is non-zero and the claimed growth value is
minus three hundred percent, yet the code reports no growth value
because it requires a strictly positive first value. -/
theorem growth_none_on_negative_first :
    growthPct [-10, 20] = none ∧ ((-10 : ℚ) ≠ 0) ∧
    2 ≤ ([(-10 : ℚ), 20]).length ∧
    ((20 : ℚ) - (-10)) / (-10) * 100 = -300 := by
  refine ⟨by decide, by norm_num, by decide, by norm_num⟩

/-- Claim C5 (amended): the growth percentage equals the relative change
of last over first times one hundred when the series has at least two
points and its first value is strictly positive; with fewer than two
points or a non-positive first value no value is produced. -/
theorem growth_defined_iff_positive_first (series : List ℚ) :
    (2 ≤ series.length → 0 < series.headD 0 →
      growthPct series =
        some ((series.getLastD 0 - series.headD 0) / series.headD 0 * 100)) ∧
    (series.length ≤ 1 ∨ series.headD 0 ≤ 0 → growthPct series = none) := by
  constructor
  · intro hlen hpos
    unfold growthPct
    rw [if_pos (by omega), if_pos hpos]
  · intro h
    unfold growthPct
    rcases h with h | h
    · rw [if_neg (by omega)]
    · by_cases hl : series.length > 1
      · rw [if_pos hl, if_neg (not_lt.mpr h)]
      · rw [if_neg hl]

/-- Witness for claim C5 on the specification's worked series. -/
theorem growth_defined_iff_positive_first_witness :
    growthPct [100, 150] = some (((150 : ℚ) - 100) / 100 * 100) :=
  (growth_defined_iff_positive_first [100, 150]).1 (by decide) (by norm_num)

/-! ## Claim C4 -/

/-- Claim C4: aggregating dated amounts by date yields, for every
produced entry, the sum of the amounts of all rows bearing that date;
the produced series is sorted ascending by date and carries every date
occurring in the input. -/
theorem by_date_aggregation_sorted_and_summed (rows : List DatedAmount) :
    ((salesSeries rows).map Prod.fst).Sorted (· ≤ ·) ∧
    (∀ e ∈ salesSeries rows, e.2 = sumOn rows e.1) ∧
    (∀ d ∈ rows.map (·.date), d ∈ (salesSeries rows).map Prod.fst) := by
  refine ⟨?_, ?_, ?_⟩
  · have hs : (salesSeries rows).Sorted keyLE :=
      List.sorted_insertionSort keyLE (aggregateByDate rows)
    exact List.pairwise_map.mpr hs
  · intro e he
    have hmem : e ∈ aggregateByDate rows :=
      (List.mem_insertionSort keyLE).mp he
    have hnd := nodup_keys_aggregateByDate rows
    have h1 := lookupD_of_mem hnd hmem
    have h2 : lookupD (aggregateByDate rows) e.1 = sumOn rows e.1 := by
      simpa [aggregateByDate, lookupD] using lookupD_foldl_dated rows [] e.1
    rw [h1] at h2
    exact h2
  · intro d hd
    have hagg : d ∈ (aggregateByDate rows).map Prod.fst := by
      simpa [aggregateByDate] using mem_keys_foldl_dated rows [] d (Or.inr hd)
    have hperm : List.Perm (salesSeries rows) (aggregateByDate rows) :=
      List.perm_insertionSort keyLE (aggregateByDate rows)
    exact ((hperm.map Prod.fst).mem_iff).mpr hagg

/-- Witness for claim C4 on the specification's worked example: the two
amounts of day one merge to one hundred fifty. -/
theorem by_date_aggregation_witness :
    ((1, (150 : ℚ)) ∈ salesSeries exSales) ∧ (150 : ℚ) = sumOn exSales 1 := by
  have hcomp : salesSeries exSales = [(1, 150), (2, 30)] := by
    norm_num [salesSeries, aggregateByDate, exSales, upsert,
      List.insertionSort, List.orderedInsert, keyLE]
  have hmem : ((1 : ℕ), (150 : ℚ)) ∈ salesSeries exSales := by
    rw [hcomp]
    simp
  exact ⟨hmem, (by_date_aggregation_sorted_and_summed exSales).2.1 (1, 150) hmem⟩

/-! ## Claim C6 -/

/-- Claim C6 counterexample: with company totals minus three hundred and
minus two hundred the grand total is minus five hundred, which is
non-zero, and the claimed share of the first company is sixty percent;
the code reports zero percent for both because it requires a strictly
positive grand total. -/
theorem market_share_zero_on_negative_grand_total :
    companyShares negPurchases = [("a", 0), ("b", 0)] ∧
    totalPurchases negPurchases = -500 ∧ ((-500 : ℚ) ≠ 0) ∧
    (-300 : ℚ) / (-500) * 100 = 60 ∧ ((0 : ℚ) ≠ 60) := by
  refine ⟨?_, ?_, by norm_num, by norm_num, by norm_num⟩
  · simp only [companyShares, companyTotals, totalPurchases, negPurchases,
      List.foldl, List.map, upsert, marketShare]
    norm_num
  · simp only [totalPurchases, negPurchases, List.map, List.sum_cons, List.sum_nil]
    norm_num

theorem sumSnd_upsert {κ : Type} [DecidableEq κ] (acc : List (κ × ℚ)) (k : κ) (amt : ℚ) :
    ((upsert acc k amt).map Prod.snd).sum = (acc.map Prod.snd).sum + amt := by
  induction acc with
  | nil => simp [upsert]
  | cons e rest ih =>
    by_cases he : e.1 = k
    · simp [upsert, he]
      ring
    · simp [upsert, he, ih]
      ring

theorem sum_companyTotals (purchases : List Purchase) :
    ((companyTotals purchases).map Prod.snd).sum = totalPurchases purchases := by
  suffices h : ∀ acc : List (String × ℚ),
      ((purchases.foldl (fun a inv => upsert a inv.company_id inv.total_amount) acc).map
          Prod.snd).sum
        = (acc.map Prod.snd).sum + totalPurchases purchases by
    simpa [companyTotals] using h []
  induction purchases with
  | nil => intro acc; simp [totalPurchases]
  | cons inv rest ih =>
    intro acc
    rw [List.foldl_cons, ih, sumSnd_upsert]
    simp [totalPurchases]
    ring

theorem nodup_keys_companyTotals (purchases : List Purchase) :
    ((companyTotals purchases).map Prod.fst).Nodup := by
  suffices h : ∀ acc : List (String × ℚ), (acc.map Prod.fst).Nodup →
      ((purchases.foldl (fun a inv => upsert a inv.company_id inv.total_amount) acc).map
          Prod.fst).Nodup by
    simpa [companyTotals] using h [] (by simp)
  induction purchases with
  | nil => intro acc h; simpa using h
  | cons inv rest ih => intro acc h; exact ih _ (nodup_keys_upsert _ _ _ h)

theorem sum_shares_formula (l : List (String × ℚ)) (G : ℚ) :
    ((l.map (fun c => c.2 / G * 100)).sum) = (l.map Prod.snd).sum / G * 100 := by
  induction l with
  | nil => simp
  | cons e rest ih =>
    simp [ih]
    ring

/-- Claim C6 (amended): each company's market share equals its total
divided by the grand total times one hundred when the grand total is
strictly positive, in which case the shares sum to one hundred percent;
when the grand total is zero or negative every share is reported as
zero percent. -/
theorem market_share_formula_and_sum (purchases : List Purchase) :
    (totalPurchases purchases ≤ 0 → ∀ e ∈ companyShares purchases, e.2 = 0) ∧
    (0 < totalPurchases purchases →
      (∀ e ∈ companyShares purchases,
        e.2 = lookupD (companyTotals purchases) e.1 / totalPurchases purchases * 100) ∧
      ((companyShares purchases).map Prod.snd).sum = 100) := by
  constructor
  · intro hG e he
    simp only [companyShares, List.mem_map] at he
    obtain ⟨c, hc, rfl⟩ := he
    simp [marketShare, not_lt.mpr hG]
  · intro hG
    constructor
    · intro e he
      simp only [companyShares, List.mem_map] at he
      obtain ⟨c, hc, rfl⟩ := he
      have hl := lookupD_of_mem (nodup_keys_companyTotals purchases) hc
      simp [marketShare, hG, hl]
    · have hmap : (companyShares purchases).map Prod.snd =
          (companyTotals purchases).map (fun c => c.2 / totalPurchases purchases * 100) := by
        simp [companyShares, marketShare, hG, List.map_map]
      rw [hmap, sum_shares_formula, sum_companyTotals,
        div_self (ne_of_gt hG)]
      norm_num

/-- Witness for claim C6 on the specification's worked example with
totals three hundred, two hundred and zero. -/
theorem market_share_formula_and_sum_witness :
    0 < totalPurchases sharesExample ∧
    ((companyShares sharesExample).map Prod.snd).sum = 100 :=
  ⟨by norm_num [totalPurchases, sharesExample],
   ((market_share_formula_and_sum sharesExample).2
      (by norm_num [totalPurchases, sharesExample])).2⟩

/-! ## Claim C7 -/

/-- Claim C7: over the union of the key sets of two aggregations, every
produced net entry is the value from one side minus the value from the
other, every key of either side appears in the produced series, and a
key missing from a side reads as zero there. -/
theorem net_series_subtracts_aligned_values (salesAgg purchAgg : List (ℕ × ℚ)) :
    (∀ e ∈ netSeries salesAgg purchAgg,
        e.2 = lookupD salesAgg e.1 - lookupD purchAgg e.1) ∧
    (∀ d, d ∈ salesAgg.map Prod.fst ∨ d ∈ purchAgg.map Prod.fst →
        d ∈ (netSeries salesAgg purchAgg).map Prod.fst) ∧
    (∀ (acc : List (ℕ × ℚ)) (d : ℕ), d ∉ acc.map Prod.fst → lookupD acc d = 0) := by
  refine ⟨?_, ?_, fun acc d h => lookupD_eq_zero_of_not_mem acc d h⟩
  · intro e he
    simp only [netSeries, List.mem_map] at he
    obtain ⟨d, hd, rfl⟩ := he
    rfl
  · intro d hd
    have hk : (netSeries salesAgg purchAgg).map Prod.fst =
        List.insertionSort (· ≤ ·)
          ((salesAgg.map Prod.fst ++ purchAgg.map Prod.fst).dedup) := by
      simp only [netSeries, List.map_map]
      rw [show (Prod.fst ∘ fun d => (d, lookupD salesAgg d - lookupD purchAgg d)) = id from rfl,
        List.map_id]
    rw [hk, List.mem_insertionSort, List.mem_dedup, List.mem_append]
    exact hd

/-- Witness for claim C7 at two one-entry aggregations with disjoint
keys: day one appears in the net series, and the purchase side reads as
zero on day one where it has no entry. -/
theorem net_series_subtracts_aligned_values_witness :
    (1 ∈ (netSeries [(1, 5)] [(2, 3)]).map Prod.fst) ∧
    lookupD [((2 : ℕ), (3 : ℚ))] 1 = 0 :=
  ⟨(net_series_subtracts_aligned_values [(1, 5)] [(2, 3)]).2.1 1 (Or.inl (by decide)),
   (net_series_subtracts_aligned_values [(1, 5)] [(2, 3)]).2.2 [(2, 3)] 1 (by decide)⟩

/-! ## Grouping lemmas for the report generators -/

theorem keys_addToGroups (gs : List DateGroup) (r : TxRecord) :
    (addToGroups gs r).map (fun g => g.date) =
      if r.date ∈ gs.map (fun g => g.date) then gs.map (fun g => g.date)
      else gs.map (fun g => g.date) ++ [r.date] := by
  induction gs with
  | nil => simp [addToGroups]
  | cons g rest ih =>
    by_cases hg : g.date = r.date
    · simp [addToGroups, hg]
    · have hrg : r.date ≠ g.date := fun h => hg h.symm
      by_cases hmem : r.date ∈ rest.map (fun g => g.date)
      · have hcond : r.date ∈ (g :: rest).map (fun g => g.date) := by simp [hmem]
        rw [if_pos hcond]
        simp [addToGroups, hg, ih, hmem]
      · have hcond : r.date ∉ (g :: rest).map (fun g => g.date) := by simp [hrg, hmem]
        rw [if_neg hcond]
        simp [addToGroups, hg, ih, hmem]

theorem nodup_keys_addToGroups (gs : List DateGroup) (r : TxRecord)
    (h : (gs.map (fun g => g.date)).Nodup) :
    ((addToGroups gs r).map (fun g => g.date)).Nodup := by
  rw [keys_addToGroups]
  split
  · exact h
  · rename_i hmem
    refine h.append (List.nodup_singleton _) ?_
    intro a ha hb
    simp only [List.mem_singleton] at hb
    subst hb
    exact hmem ha

theorem nodup_keys_groupByDate (rows : List TxRecord) :
    ((groupByDate rows).map (fun g => g.date)).Nodup := by
  suffices h : ∀ gs : List DateGroup, (gs.map (fun g => g.date)).Nodup →
      ((rows.foldl addToGroups gs).map (fun g => g.date)).Nodup by
    simpa [groupByDate] using h [] (by simp)
  induction rows with
  | nil => intro gs h; simpa using h
  | cons r rest ih => intro gs h; exact ih _ (nodup_keys_addToGroups _ _ h)

theorem groupItems_addToGroups (gs : List DateGroup) (r : TxRecord) (d : ℕ) :
    groupItems (addToGroups gs r) d =
      if d = r.date then groupItems gs d ++ [r] else groupItems gs d := by
  induction gs with
  | nil =>
    rcases eq_or_ne d r.date with h | h
    · subst h
      simp [addToGroups, groupItems]
    · simp [addToGroups, groupItems, h, Ne.symm h]
  | cons g rest ih =>
    by_cases hg : g.date = r.date
    · rcases eq_or_ne d r.date with h | h
      · subst h
        simp [addToGroups, groupItems, hg]
      · have hgd : g.date ≠ d := fun hh => h (hh.symm.trans hg)
        simp [addToGroups, groupItems, hg, hgd, h, Ne.symm h]
    · rcases eq_or_ne g.date d with hgd | hgd
      · have hdr : d ≠ r.date := fun hh => hg (hgd.trans hh)
        simp [addToGroups, groupItems, hg, hgd, hdr]
      · simp [addToGroups, groupItems, hg, hgd, ih]

theorem groupTotal_addToGroups (gs : List DateGroup) (r : TxRecord) (d : ℕ) :
    groupTotal (addToGroups gs r) d =
      if d = r.date then groupTotal gs d + r.total_price else groupTotal gs d := by
  induction gs with
  | nil =>
    rcases eq_or_ne d r.date with h | h
    · subst h
      simp [addToGroups, groupTotal]
    · simp [addToGroups, groupTotal, h, Ne.symm h]
  | cons g rest ih =>
    by_cases hg : g.date = r.date
    · rcases eq_or_ne d r.date with h | h
      · subst h
        simp [addToGroups, groupTotal, hg]
      · have hgd : g.date ≠ d := fun hh => h (hh.symm.trans hg)
        simp [addToGroups, groupTotal, hg, hgd, h, Ne.symm h]
    · rcases eq_or_ne g.date d with hgd | hgd
      · have hdr : d ≠ r.date := fun hh => hg (hgd.trans hh)
        simp [addToGroups, groupTotal, hg, hgd, hdr]
      · simp [addToGroups, groupTotal, hg, hgd, ih]

theorem groupItems_foldl (rows : List TxRecord) :
    ∀ (gs : List DateGroup) (d : ℕ),
      groupItems (rows.foldl addToGroups gs) d =
        groupItems gs d ++ rows.filter (fun r => decide (r.date = d)) := by
  induction rows with
  | nil => intro gs d; simp
  | cons r rest ih =>
    intro gs d
    rw [List.foldl_cons, ih, groupItems_addToGroups]
    rcases eq_or_ne d r.date with h | h
    · subst h
      simp [List.filter_cons]
    · simp [List.filter_cons, h, Ne.symm h]

theorem groupTotal_foldl (rows : List TxRecord) :
    ∀ (gs : List DateGroup) (d : ℕ),
      groupTotal (rows.foldl addToGroups gs) d =
        groupTotal gs d +
          ((rows.filter (fun r => decide (r.date = d))).map (fun r => r.total_price)).sum := by
  induction rows with
  | nil => intro gs d; simp
  | cons r rest ih =>
    intro gs d
    rw [List.foldl_cons, ih, groupTotal_addToGroups]
    rcases eq_or_ne d r.date with h | h
    · subst h
      simp [List.filter_cons]
      ring
    · simp [List.filter_cons, h, Ne.symm h]

theorem group_accessors_of_mem {gs : List DateGroup} {g : DateGroup}
    (hnd : (gs.map (fun g => g.date)).Nodup) (hg : g ∈ gs) :
    groupItems gs g.date = g.items ∧ groupTotal gs g.date = g.total := by
  induction gs with
  | nil => cases hg
  | cons a rest ih =>
    rw [List.map_cons, List.nodup_cons] at hnd
    rcases List.mem_cons.mp hg with rfl | hmem
    · simp [groupItems, groupTotal]
    · have ha : a.date ≠ g.date := by
        intro h
        exact hnd.1 (h ▸ List.mem_map.mpr ⟨g, hmem, rfl⟩)
      simp [groupItems, groupTotal, ha, ih hnd.2 hmem]

theorem keys_foldl_sorted_desc (rows : List TxRecord) :
    ∀ gs : List DateGroup,
      ((gs.map (fun g => g.date)).Sorted (· > ·)) →
      (∀ r ∈ rows, ∀ g ∈ gs, r.date ≤ g.date) →
      ((rows.map (fun r => r.date)).Sorted (· ≥ ·)) →
      (((rows.foldl addToGroups gs).map (fun g => g.date)).Sorted (· > ·)) := by
  induction rows with
  | nil => intro gs h _ _; simpa using h
  | cons r rest ih =>
    intro gs hgs hbound hrows
    rw [List.map_cons] at hrows
    rw [List.foldl_cons]
    refine ih _ ?_ ?_ ((List.sorted_cons.mp hrows).2)
    · rw [keys_addToGroups]
      split
      · exact hgs
      · rename_i hnotmem
        rw [List.Sorted, List.pairwise_append]
        refine ⟨hgs, List.pairwise_singleton _ _, ?_⟩
        intro a ha b hb
        simp only [List.mem_singleton] at hb
        subst hb
        obtain ⟨g, hgmem, rfl⟩ := List.mem_map.mp ha
        have hle : r.date ≤ g.date := hbound r (List.mem_cons_self r rest) g hgmem
        have hne : r.date ≠ g.date :=
          fun h => hnotmem (h ▸ List.mem_map.mpr ⟨g, hgmem, rfl⟩)
        omega
    · intro r' hr' g' hg'
      have hr'r : r'.date ≤ r.date :=
        List.rel_of_sorted_cons hrows r'.date (List.mem_map.mpr ⟨r', hr', rfl⟩)
      have hdmem : g'.date ∈ (addToGroups gs r).map (fun g => g.date) :=
        List.mem_map.mpr ⟨g', hg', rfl⟩
      rw [keys_addToGroups] at hdmem
      by_cases hmem : r.date ∈ gs.map (fun g => g.date)
      · rw [if_pos hmem] at hdmem
        obtain ⟨g, hgmem, hEq⟩ := List.mem_map.mp hdmem
        have := hbound r' (List.mem_cons_of_mem r hr') g hgmem
        omega
      · rw [if_neg hmem] at hdmem
        rcases List.mem_append.mp hdmem with hL | hR
        · obtain ⟨g, hgmem, hEq⟩ := List.mem_map.mp hL
          have := hbound r' (List.mem_cons_of_mem r hr') g hgmem
          omega
        · simp only [List.mem_singleton] at hR
          omega

/-! ## Claim C8 -/

/-- Claim C8 counterexample: report groups appear in the order their
date is first seen in the fetched history, which is sorted descending;
for a history with dates two then one the summary sequence carries
dates two, one, which is not ascending. -/
theorem report_groups_follow_fetch_order :
    ((groupByDate [rA, rB]).map (fun g => g.date)) = [2, 1] ∧
    ¬ (((groupByDate [rA, rB]).map (fun g => g.date)).Sorted (· ≤ ·)) := by
  constructor
  · simp [groupByDate, addToGroups, rA, rB]
  · intro h
    have h21 : (2 : ℕ) ≤ 1 := by
      have hmap : ((groupByDate [rA, rB]).map (fun g => g.date)) = [2, 1] := by
        simp [groupByDate, addToGroups, rA, rB]
      rw [hmap] at h
      exact List.rel_of_sorted_cons h 1 (by simp)
    omega

/-- Claim C8 (amended): the report assembler produces its summary and
detail pairs in first-appearance order of the group key, hence
descending by date for the descending-fetched history, and every group
carries exactly the input rows of its date, so its item count and total
are the count and summed total price of those rows. -/
theorem report_groups_descending_with_count_and_total (rows : List TxRecord) :
    (((rows.map (fun r => r.date)).Sorted (· ≥ ·)) →
      (((groupByDate rows).map (fun g => g.date)).Sorted (· > ·))) ∧
    (∀ g ∈ groupByDate rows,
      g.items = rows.filter (fun r => decide (r.date = g.date)) ∧
      g.total =
        ((rows.filter (fun r => decide (r.date = g.date))).map (fun r => r.total_price)).sum) := by
  constructor
  · intro hs
    have h := keys_foldl_sorted_desc rows [] (by simp) (by simp) hs
    simpa [groupByDate] using h
  · intro g hg
    have hnd := nodup_keys_groupByDate rows
    have hacc := group_accessors_of_mem hnd hg
    constructor
    · rw [← hacc.1]
      simpa [groupByDate, groupItems] using groupItems_foldl rows [] g.date
    · rw [← hacc.2]
      simpa [groupByDate, groupTotal] using groupTotal_foldl rows [] g.date

/-- Witness for claim C8 on the two-row descending history. -/
theorem report_groups_descending_witness :
    (([rA, rB].map (fun r => r.date)).Sorted (· ≥ ·)) ∧
    (((groupByDate [rA, rB]).map (fun g => g.date)).Sorted (· > ·)) :=
  ⟨by decide, (report_groups_descending_with_count_and_total [rA, rB]).1 (by decide)⟩

/-! ## Claim C10 -/

theorem sumTotals_addToGroups (gs : List DateGroup) (r : TxRecord) :
    ((addToGroups gs r).map (fun g => g.total)).sum =
      (gs.map (fun g => g.total)).sum + r.total_price := by
  induction gs with
  | nil => simp [addToGroups]
  | cons g rest ih =>
    by_cases hg : g.date = r.date
    · simp [addToGroups, hg]
      ring
    · simp [addToGroups, hg, ih]
      ring

/-- Claim C10: the grand total obtained by summing the line totals of
the whole history equals the sum of the per-group totals after grouping
the same rows by date. -/
theorem grand_total_eq_sum_of_group_totals (rows : List TxRecord) :
    grandTotal rows = ((groupByDate rows).map (fun g => g.total)).sum := by
  suffices h : ∀ gs : List DateGroup,
      ((rows.foldl addToGroups gs).map (fun g => g.total)).sum
        = (gs.map (fun g => g.total)).sum + grandTotal rows by
    simpa [groupByDate] using (h []).symm
  induction rows with
  | nil => intro gs; simp [grandTotal]
  | cons r rest ih =>
    intro gs
    rw [List.foldl_cons, ih, sumTotals_addToGroups]
    simp [grandTotal]
    ring

/-! ## Claim C9 -/

theorem mem_of_findExisting {products : List Product} {form : ProductForm} {ex : Product}
    (h : findExisting products form = some ex) : ex ∈ products := by
  induction products with
  | nil => simp [findExisting] at h
  | cons p rest ih =>
    by_cases hp : lowerStr p.name = lowerStr form.name ∧ p.quantity_unit = form.quantity_unit
    · rw [show findExisting (p :: rest) form =
          if lowerStr p.name = lowerStr form.name ∧ p.quantity_unit = form.quantity_unit
          then some p else findExisting rest form from rfl, if_pos hp] at h
      exact (Option.some.inj h) ▸ List.mem_cons_self p rest
    · rw [show findExisting (p :: rest) form =
          if lowerStr p.name = lowerStr form.name ∧ p.quantity_unit = form.quantity_unit
          then some p else findExisting rest form from rfl, if_neg hp] at h
      exact List.mem_cons_of_mem p (ih h)

theorem product_id_injective {products : List Product}
    (hnd : (products.map (fun p => p.id)).Nodup)
    {a b : Product} (ha : a ∈ products) (hb : b ∈ products) (h : a.id = b.id) : a = b :=
  List.inj_on_of_nodup_map hnd ha hb h

/-- Claim C9: when the add-product form is submitted in add mode and a
loaded product matches the name case-insensitively with the same unit,
no row is appended; the matched row reappears with its quantity
increased by the submitted quantity, every other field unchanged, every
other row survives unchanged, and the matched identifier carries no
other row. -/
theorem add_mode_merges_duplicate_product (products : List Product) (newId : String)
    (form : ProductForm) (ex : Product)
    (hfind : findExisting products form = some ex)
    (hnd : (products.map (fun p => p.id)).Nodup) :
    (handleSubmitAdd products newId form).length = products.length ∧
    { ex with quantity := ex.quantity + form.quantity } ∈ handleSubmitAdd products newId form ∧
    (∀ p ∈ products, p.id ≠ ex.id → p ∈ handleSubmitAdd products newId form) ∧
    (∀ p ∈ handleSubmitAdd products newId form, p.id = ex.id →
        p = { ex with quantity := ex.quantity + form.quantity }) := by
  have hmem : ex ∈ products := mem_of_findExisting hfind
  simp only [handleSubmitAdd, hfind]
  refine ⟨List.length_map _ _, ?_, ?_, ?_⟩
  · exact List.mem_map.mpr ⟨ex, hmem, by simp⟩
  · intro p hp hne
    exact List.mem_map.mpr ⟨p, hp, by simp [hne]⟩
  · intro p hp hpid
    obtain ⟨q, hq, hqe⟩ := List.mem_map.mp hp
    by_cases h : q.id = ex.id
    · have hqx : q = ex := product_id_injective hnd hq hmem h
      subst hqx
      rw [← hqe]
      simp [h]
    · rw [← hqe] at hpid
      simp only [if_neg h] at hpid
      exact absurd hpid h

/-- Witness for claim C9: the form name uReA matches the loaded product
Urea up to case with the same unit, and the merged row with quantity
twelve is produced. -/
theorem add_mode_merges_duplicate_product_witness :
    findExisting [pA, pB] formUrea = some pA ∧
    (([pA, pB].map (fun p => p.id)).Nodup) ∧
    { pA with quantity := pA.quantity + formUrea.quantity } ∈
      handleSubmitAdd [pA, pB] "idNew" formUrea :=
  ⟨by decide, by decide,
   (add_mode_merges_duplicate_product [pA, pB] "idNew" formUrea pA
      (by decide) (by decide)).2.1⟩

end FertiDash
